import Mathlib

/-!
Shallow embedding of `src/day14.rs` (AoC 2020 day 14): a 36-bit mask machine
with two simulation passes (value masking and address floating).

Rust `usize` is modelled as `Nat`; the only places 64-bit width matters are
the bitwise complement `!x` (modelled by `not64`) and the initial mask `!0`
(modelled by `USIZE - 1`).  Parsed masks and addresses always fit in 36 bits,
values in 64 bits, so no other operation can overflow.
-/

/-- `2 ^ 64`, one past the largest Rust `usize` value. -/
def USIZE : Nat := 2 ^ 64

/-- Rust bitwise complement `!x` on a 64-bit `usize`. -/
def not64 (x : Nat) : Nat := (USIZE - 1) ^^^ x

/-- `struct Masked { mask: usize, value: usize }`: `mask` holds the `X`
(don't-care) positions, `value` the forced-one positions. -/
structure Masked where
  mask : Nat
  value : Nat
deriving DecidableEq, Repr

/-- The character loop of `Masked::from_str`: `i` is the character index,
`mask`/`value` the accumulators; character `i` targets bit `35 - i`.
Faithful for strings of length at most 36 (the only ones the program ever
feeds it; a longer string makes the Rust subtraction `35 - i` panic). -/
def fromStrGo : List Char → Nat → Nat → Nat → Option Masked
  | [], mask, value, _ => some ⟨mask, value⟩
  | c :: cs, mask, value, i =>
    let x := 1 <<< (35 - i)
    match c with
    | '1' => fromStrGo cs mask (value ||| x) (i + 1)
    | '0' => fromStrGo cs mask value (i + 1)
    | 'X' => fromStrGo cs (mask ||| x) value (i + 1)
    | _ => none

/-- `Masked::from_str`: `none` models the `Err` on an invalid character. -/
def Masked.fromStr (s : List Char) : Option Masked := fromStrGo s 0 0 0

/-- The per-bit character of `impl Display for Masked`: `X` where `mask` is
set, else `1` where `value` is set, else `0`. -/
def maskChar (m : Masked) (i : Nat) : Char :=
  if m.mask &&& (1 <<< i) ≠ 0 then 'X'
  else if m.value &&& (1 <<< i) ≠ 0 then '1'
  else '0'

/-- `impl Display for Masked`: `maskChar` over bits 35 down to 0. -/
def Masked.render (m : Masked) : List Char :=
  ((List.range 36).reverse).map (maskChar m)

/-- `enum Command { SetMask(Masked), Assign(usize, usize) }`. -/
inductive Command where
  | setMask (m : Masked)
  | assign (address value : Nat)
deriving DecidableEq, Repr

/-- Strip an expected literal from the front of a line, returning the rest. -/
def dropStart : List Char → List Char → Option (List Char)
  | [], s => some s
  | _ :: _, [] => none
  | p :: ps, c :: cs => if c = p then dropStart ps cs else none

/-- The character class `[10X]` of the `SET_MASK` regex. -/
def isMaskChar (c : Char) : Bool := c = '0' || c = '1' || c = 'X'

/-- Matching of the anchored regex `^mask = ([10X]{36})$`, returning the
capture group. -/
def matchMask (s : List Char) : Option (List Char) :=
  match dropStart "mask = ".toList s with
  | some body => if body.length = 36 && body.all isMaskChar then some body else none
  | none => none

/-- Decimal reading done by `parse::<usize>()` on a digit string (`usize`
overflow is out of scope per the spec's design notes, so the result is an
unbounded `Nat`). -/
def digitsToNat (ds : List Char) : Nat :=
  ds.foldl (fun acc c => 10 * acc + (c.toNat - '0'.toNat)) 0

/-- Matching of the anchored regex `^mem\[([0-9]+)\] = ([0-9]+)$`, returning
the two numeric captures.  The greedy digit run of `[0-9]+` is a `takeWhile`,
which agrees with the regex because `]` is not a digit. -/
def matchAssign (s : List Char) : Option (Nat × Nat) :=
  match dropStart "mem[".toList s with
  | none => none
  | some rest =>
    let ds1 := rest.takeWhile Char.isDigit
    let rest1 := rest.dropWhile Char.isDigit
    if ds1.isEmpty then none
    else
      match dropStart "] = ".toList rest1 with
      | none => none
      | some ds2 =>
        if ds2.isEmpty || !(ds2.all Char.isDigit) then none
        else some (digitsToNat ds1, digitsToNat ds2)

/-- `parse_line`: try `SET_MASK`, then `ASSIGN`, else error carrying the
line (the `anyhow!("Can't parse: {}", s)` case). -/
def parse_line (s : List Char) : Except (List Char) Command :=
  match matchMask s with
  | some body =>
    match Masked.fromStr body with
    | some m => .ok (.setMask m)
    | none => .error s
  | none =>
    match matchAssign s with
    | some (a, v) => .ok (.assign a v)
    | none => .error s

/-- `aoclib::read_parsed_lines`: parse every line, failing on the first bad
one. -/
def parseLines : List (List Char) → Except (List Char) (List Command)
  | [] => .ok []
  | l :: ls =>
    match parse_line l with
    | .error e => .error e
    | .ok c =>
      match parseLines ls with
      | .error e => .error e
      | .ok cs => .ok (c :: cs)

/-- `HashMap::insert` on the memory, modelled as an association list with
unique keys: overwrite the entry for `k` if present, else add one. -/
def storeList : List (Nat × Nat) → Nat → Nat → List (Nat × Nat)
  | [], k, v => [(k, v)]
  | (k', v') :: rest, k, v =>
    if k' = k then (k, v) :: rest else (k', v') :: storeList rest k v

/-- `HashMap::get`: the value mapped at `k`, if any. -/
def lookupList : List (Nat × Nat) → Nat → Option Nat
  | [], _ => none
  | (k', v') :: rest, k => if k' = k then some v' else lookupList rest k

/-- `struct Machine { mask: Masked, memory: HashMap<usize, usize> }`. -/
structure Machine where
  mask : Masked
  memory : List (Nat × Nat)
deriving DecidableEq, Repr

/-- `Machine::new()`: fully transparent mask `!0` / `0`, empty memory. -/
def Machine.new : Machine :=
  { mask := { mask := USIZE - 1, value := 0 }, memory := [] }

/-- `Machine::store`. -/
def Machine.store (machine : Machine) (key value : Nat) : Machine :=
  { machine with memory := storeList machine.memory key value }

/-- `Machine::sum_values`. -/
def Machine.sum_values (machine : Machine) : Nat :=
  (machine.memory.map Prod.snd).sum

/-- One command of the `part1` loop: value masking
`value & (mask | value_bits) | (!mask & value_bits)` stored at the literal
address. -/
def step1 (machine : Machine) (command : Command) : Machine :=
  match command with
  | .setMask m => { machine with mask := m }
  | .assign address value =>
    let ones := not64 machine.mask.mask &&& machine.mask.value
    let notZeros := machine.mask.mask ||| machine.mask.value
    machine.store address (value &&& notZeros ||| ones)

/-- `part1`: fold the commands over a fresh machine and sum the memory. -/
def part1 (commands : List Command) : Nat :=
  (commands.foldl step1 Machine.new).sum_values

/-- One doubling step of `expand_addresses`: for each address push
`address | x` then `address & !x`. -/
def expandStep (x : Nat) (result : List Nat) : List Nat :=
  result.flatMap (fun address => [address ||| x, address &&& not64 x])

/-- The `for i in 0..36` loop of `expand_addresses`, recursing over the
remaining bit indices. -/
def expandLoop : List Nat → Nat → List Nat → List Nat
  | [], _, result => result
  | i :: rest, mask, result =>
    expandLoop rest mask
      (if mask &&& (1 <<< i) ≠ 0 then expandStep (1 <<< i) result else result)

/-- `expand_addresses(mask, address)`. -/
def expand_addresses (mask address : Nat) : List Nat :=
  expandLoop (List.range 36) mask [address]

/-- One command of the `part2` loop: address floating — or the mask's
forced-one bits into the address, expand over the floating bits, store the
value at every expanded address. -/
def step2 (machine : Machine) (command : Command) : Machine :=
  match command with
  | .setMask m => { machine with mask := m }
  | .assign address value =>
    let address' := address ||| machine.mask.value
    (expand_addresses machine.mask.mask address').foldl
      (fun mach a => mach.store a value) machine

/-- `part2`: fold the commands over a fresh machine and sum the memory. -/
def part2 (commands : List Command) : Nat :=
  (commands.foldl step2 Machine.new).sum_values

/-- Modelled from the spec (§4.4), for comparison with `step1`: the assign
step computes `forced_ones = value_bits`,
`not_forced_zero = care_mask | value_bits`, and stores
`(raw_value AND not_forced_zero) OR forced_ones` at the literal address. -/
def step1Spec (machine : Machine) (command : Command) : Machine :=
  match command with
  | .setMask m => { machine with mask := m }
  | .assign address value =>
    let forcedOnes := machine.mask.value
    let notForcedZero := machine.mask.mask ||| machine.mask.value
    machine.store address (value &&& notForcedZero ||| forcedOnes)

/-- Modelled from the spec (§4.4): `part1` with the spec's wording of the
masking step. -/
def part1Spec (commands : List Command) : Nat :=
  (commands.foldl step1Spec Machine.new).sum_values

/-- Modelled from the spec (§4.2, grammar 1): `mask = ` followed by exactly
36 characters over `{0,1,X}`. -/
def MaskGrammar (s : List Char) : Prop :=
  ∃ body : List Char, s = "mask = ".toList ++ body ∧ body.length = 36 ∧
    ∀ c ∈ body, c = '0' ∨ c = '1' ∨ c = 'X'

/-- Modelled from the spec (§4.2, grammar 2): `mem[<digits>] = <digits>`
with both digit fields non-empty. -/
def AssignGrammar (s : List Char) : Prop :=
  ∃ ds1 ds2 : List Char, s = "mem[".toList ++ ds1 ++ "] = ".toList ++ ds2 ∧
    ds1 ≠ [] ∧ ds2 ≠ [] ∧ (∀ c ∈ ds1, c.isDigit = true) ∧
    (∀ c ∈ ds2, c.isDigit = true)

/-- `[n-1, n-2, …, 0]`, the bit order in which `Display` renders a mask. -/
def downRange : Nat → List Nat
  | 0 => []
  | n + 1 => n :: downRange n

/-- The four input lines of the spec's end-to-end scenario A. -/
def linesA : List (List Char) :=
  ["mask = XXXXXXXXXXXXXXXXXXXXXXXXXXXXX1XXXX0X".toList,
   "mem[8] = 11".toList,
   "mem[7] = 101".toList,
   "mem[8] = 0".toList]

/-- The four input lines of the spec's end-to-end scenario B. -/
def linesB : List (List Char) :=
  ["mask = 000000000000000000000000000000X1001X".toList,
   "mem[42] = 100".toList,
   "mask = 00000000000000000000000000000000X0XX".toList,
   "mem[26] = 1".toList]

/-! ## Helper lemmas: bits -/

/-- A conjunction of naturals is zero exactly when no bit is set in both. -/
theorem and_eq_zero_iff_testBit (x y : Nat) :
    x &&& y = 0 ↔ ∀ b, x.testBit b = false ∨ y.testBit b = false := by
  constructor
  · intro h b
    have hb := congrArg (fun z => Nat.testBit z b) h
    simp only [Nat.testBit_and, Nat.zero_testBit] at hb
    rcases Bool.and_eq_false_iff.1 hb with h1 | h1
    · exact Or.inl h1
    · exact Or.inr h1
  · intro h
    apply Nat.eq_of_testBit_eq
    intro b
    simp only [Nat.testBit_and, Nat.zero_testBit]
    rcases h b with h1 | h1 <;> simp [h1]

/-- Bits at or above the width of a bound are clear. -/
theorem testBit_eq_false_of_lt {x n b : Nat} (hx : x < 2 ^ n) (hb : n ≤ b) :
    x.testBit b = false :=
  Nat.testBit_lt_two_pow
    (lt_of_lt_of_le hx (Nat.pow_le_pow_right (by norm_num) hb))

/-- Bit view of the 64-bit complement. -/
theorem testBit_not64 (x b : Nat) :
    (not64 x).testBit b = (decide (b < 64) ^^ x.testBit b) := by
  unfold not64 USIZE
  rw [Nat.testBit_xor, Nat.testBit_two_pow_sub_one]

/-- The code's bit test `x & (1 << i) != 0` is `testBit`. -/
theorem and_one_shiftLeft_ne_zero (x i : Nat) :
    (x &&& (1 <<< i) ≠ 0) ↔ x.testBit i = true := by
  rw [Nat.one_shiftLeft]
  constructor
  · intro h
    by_contra hb
    apply h
    apply (and_eq_zero_iff_testBit _ _).2
    intro b
    by_cases hbi : i = b
    · subst hbi
      exact Or.inl (by simpa using hb)
    · exact Or.inr (Nat.testBit_two_pow_of_ne hbi)
  · intro h hz
    rcases (and_eq_zero_iff_testBit _ _).1 hz i with h1 | h1
    · rw [h] at h1; cases h1
    · rw [Nat.testBit_two_pow_self] at h1; cases h1

/-- On a disjoint pair below `2^64`, masking by the complement is the
identity: `!m & v = v` when `m & v = 0`. -/
theorem not64_and_eq_self {m v : Nat} (hd : m &&& v = 0) (hv : v < USIZE) :
    not64 m &&& v = v := by
  apply Nat.eq_of_testBit_eq
  intro b
  rw [Nat.testBit_and, testBit_not64]
  by_cases hb : b < 64
  · cases hvb : v.testBit b with
    | false => simp [hvb]
    | true =>
      have hm : m.testBit b = false := by
        rcases (and_eq_zero_iff_testBit m v).1 hd b with h1 | h1
        · exact h1
        · rw [h1] at hvb; cases hvb
      simp [hb, hm, hvb]
  · have hvb : v.testBit b = false :=
      testBit_eq_false_of_lt (show v < 2 ^ 64 from hv) (by omega)
    simp [hb, hvb]

/-! ## Helper lemmas: memory as an association list -/

/-- Storing twice at one key keeps only the second value. -/
theorem storeList_twice (mem : List (Nat × Nat)) (k v₁ v₂ : Nat) :
    storeList (storeList mem k v₁) k v₂ = storeList mem k v₂ := by
  induction mem with
  | nil => simp [storeList]
  | cons p rest ih =>
    obtain ⟨k', v'⟩ := p
    by_cases h : k' = k
    · simp [storeList, h]
    · simp [storeList, h, ih]

/-- Lookup after a store: the stored key maps to the new value, every other
key is untouched. -/
theorem lookup_storeList (mem : List (Nat × Nat)) (k v k' : Nat) :
    lookupList (storeList mem k v) k' =
      if k' = k then some v else lookupList mem k' := by
  induction mem with
  | nil =>
    simp only [storeList, lookupList]
    by_cases h : k = k'
    · simp [h]
    · simp [h, Ne.symm h]
  | cons p rest ih =>
    obtain ⟨k₀, v₀⟩ := p
    by_cases h : k₀ = k
    · subst h
      simp only [storeList, if_pos rfl, lookupList]
      by_cases h' : k₀ = k'
      · simp [h']
      · simp [h', Ne.symm h']
    · simp only [storeList, if_neg h, lookupList, ih]
      by_cases h' : k₀ = k'
      · subst h'
        simp [h]
      · simp [h']

/-- Sum after a store: the new value comes in, the displaced value (if any)
goes out. -/
theorem sum_storeList (mem : List (Nat × Nat)) (k v : Nat) :
    ((storeList mem k v).map Prod.snd).sum + (lookupList mem k).getD 0 =
      (mem.map Prod.snd).sum + v := by
  induction mem with
  | nil => simp [storeList, lookupList]
  | cons p rest ih =>
    obtain ⟨k', v'⟩ := p
    by_cases h : k' = k <;> simp [storeList, lookupList, h] <;> omega

/-- Lookup after storing one value at every address of a list. -/
theorem lookup_foldl_store (l : List Nat) (mach : Machine) (v a : Nat) :
    lookupList (l.foldl (fun m x => m.store x v) mach).memory a =
      if a ∈ l then some v else lookupList mach.memory a := by
  induction l generalizing mach with
  | nil => simp
  | cons x rest ih =>
    rw [List.foldl_cons, ih]
    by_cases hr : a ∈ rest <;> by_cases hx : a = x <;>
      simp [hr, hx, Machine.store, lookup_storeList]

/-- Storing never changes the machine's mask. -/
theorem mask_foldl_store (l : List Nat) (mach : Machine) (v : Nat) :
    (l.foldl (fun m x => m.store x v) mach).mask = mach.mask := by
  induction l generalizing mach with
  | nil => rfl
  | cons x rest ih => rw [List.foldl_cons, ih]; rfl

/-! ## Claim theorems -/

/-- C9: `store(address, value)` inserts or overwrites the single mapping for
that address — storing the same address twice with different values leaves
only the latest value — and `sum_values` returns the sum of all currently
mapped values; both operations are total. -/
theorem C9_store_overwrite_and_sum :
    (∀ (mach : Machine) (k v₁ v₂ : Nat),
        (mach.store k v₁).store k v₂ = mach.store k v₂)
    ∧ (∀ (mach : Machine) (k v k' : Nat),
        lookupList (mach.store k v).memory k' =
          if k' = k then some v else lookupList mach.memory k')
    ∧ (∀ (mach : Machine) (k v : Nat),
        (mach.store k v).sum_values + (lookupList mach.memory k).getD 0 =
          mach.sum_values + v) := by
  refine ⟨fun mach k v₁ v₂ => ?_, fun mach k v k' => ?_, fun mach k v => ?_⟩
  · show ({ mach with memory := storeList (storeList mach.memory k v₁) k v₂ }
      : Machine) = _
    rw [storeList_twice]
    rfl
  · exact lookup_storeList mach.memory k v k'
  · exact sum_storeList mach.memory k v

/-- C2: executing `part2` folds the commands in order over a fresh machine;
a `SetMask` replaces the current mask; an `Assign(address, value)` ors the
mask's forced-one bits into the address, expands the result over the mask's
floating bits with `expand_addresses`, and stores `value` unchanged at every
expanded address, later stores overwriting earlier ones at equal
addresses. -/
theorem C2_part2_address_floating :
    (∀ (mach : Machine) (m : Masked),
        step2 mach (.setMask m) = { mach with mask := m })
    ∧ (∀ (mach : Machine) (address value : Nat),
        (step2 mach (.assign address value)).mask = mach.mask
        ∧ ∀ a : Nat,
            lookupList (step2 mach (.assign address value)).memory a =
              if a ∈ expand_addresses mach.mask.mask (address ||| mach.mask.value)
              then some value else lookupList mach.memory a)
    ∧ (∀ commands : List Command,
        part2 commands = (commands.foldl step2 Machine.new).sum_values) := by
  refine ⟨fun mach m => rfl, fun mach address value => ⟨?_, fun a => ?_⟩,
    fun commands => rfl⟩
  · exact mask_foldl_store _ mach value
  · exact lookup_foldl_store _ mach value a

/-- C6: on the parsed scenario-A command list (mask
`XXXXXXXXXXXXXXXXXXXXXXXXXXXXX1XXXX0X`, `mem[8] = 11`, `mem[7] = 101`,
`mem[8] = 0`), `part1` returns 165. -/
theorem C6_scenario_A : Except.map part1 (parseLines linesA) = .ok 165 := rfl

/-- C7: on the parsed scenario-B command list (mask
`000000000000000000000000000000X1001X`, `mem[42] = 100`, mask
`00000000000000000000000000000000X0XX`, `mem[26] = 1`), `part2`
returns 208. -/
theorem C7_scenario_B : Except.map part2 (parseLines linesB) = .ok 208 := rfl

/-! ## Helper lemmas: mask parsing and rendering -/

/-- `maskChar` prints `X` on a floating bit. -/
theorem maskChar_X {m : Masked} {i : Nat} (h : m.mask.testBit i = true) :
    maskChar m i = 'X' := by
  unfold maskChar
  rw [if_pos ((and_one_shiftLeft_ne_zero _ _).2 h)]

/-- `maskChar` prints `1` on a forced-one bit. -/
theorem maskChar_one {m : Masked} {i : Nat} (h1 : m.mask.testBit i = false)
    (h2 : m.value.testBit i = true) : maskChar m i = '1' := by
  unfold maskChar
  rw [if_neg (fun hc => by simp [(and_one_shiftLeft_ne_zero _ _).1 hc] at h1),
    if_pos ((and_one_shiftLeft_ne_zero _ _).2 h2)]

/-- `maskChar` prints `0` on a clear bit. -/
theorem maskChar_zero {m : Masked} {i : Nat} (h1 : m.mask.testBit i = false)
    (h2 : m.value.testBit i = false) : maskChar m i = '0' := by
  unfold maskChar
  rw [if_neg (fun hc => by simp [(and_one_shiftLeft_ne_zero _ _).1 hc] at h1),
    if_neg (fun hc => by simp [(and_one_shiftLeft_ne_zero _ _).1 hc] at h2)]

/-- The render order `(0..36).rev()` is `downRange 36`. -/
theorem downRange_eq (n : Nat) : (List.range n).reverse = downRange n := by
  induction n with
  | zero => rfl
  | succ k ih =>
    rw [List.range_succ, List.reverse_append]
    simp [downRange, ih]

/-- Running the `from_str` loop on a valid suffix succeeds; it preserves
disjointness of the accumulators and never touches bits below the processed
positions. -/
theorem fromStrGo_ok (s : List Char) :
    ∀ i m v, (∀ c ∈ s, c = '0' ∨ c = '1' ∨ c = 'X') → i + s.length ≤ 36 →
    (∀ b, b + i < 36 → m.testBit b = false ∧ v.testBit b = false) →
    ∃ m' v', fromStrGo s m v i = some ⟨m', v'⟩
      ∧ (m &&& v = 0 → m' &&& v' = 0)
      ∧ (∀ b, b + i + s.length < 36 →
          m'.testBit b = m.testBit b ∧ v'.testBit b = v.testBit b) := by
  induction s with
  | nil =>
    intro i m v _ _ _
    exact ⟨m, v, rfl, fun h => h, fun b _ => ⟨rfl, rfl⟩⟩
  | cons c cs ih =>
    intro i m v hval hlen hlow
    simp only [List.length_cons] at hlen
    have hx : (1 : Nat) <<< (35 - i) = 2 ^ (35 - i) := Nat.one_shiftLeft _
    rcases hval c (List.mem_cons_self c cs) with hc | hc | hc <;> subst hc
    · obtain ⟨m', v', heq, hdis, hagr⟩ := ih (i + 1) m v
        (fun c hc => hval c (List.mem_cons_of_mem _ hc)) (by omega)
        (fun b hb => hlow b (by omega))
      exact ⟨m', v', heq, hdis, fun b hb => by
        simp only [List.length_cons] at hb
        exact hagr b (by omega)⟩
    · obtain ⟨m', v', heq, hdis, hagr⟩ := ih (i + 1) m (v ||| 1 <<< (35 - i))
        (fun c hc => hval c (List.mem_cons_of_mem _ hc)) (by omega)
        (fun b hb => ⟨(hlow b (by omega)).1, by
          simp [Nat.testBit_or, (hlow b (by omega)).2, hx,
            Nat.testBit_two_pow_of_ne (show 35 - i ≠ b by omega)]⟩)
      refine ⟨m', v', heq, fun hmv => ?_, fun b hb => ?_⟩
      · apply hdis
        apply (and_eq_zero_iff_testBit _ _).2
        intro b
        by_cases hbi : b = 35 - i
        · subst hbi
          exact Or.inl (hlow (35 - i) (by omega)).1
        · rcases (and_eq_zero_iff_testBit _ _).1 hmv b with h1 | h1
          · exact Or.inl h1
          · refine Or.inr ?_
            simp [Nat.testBit_or, h1, hx,
              Nat.testBit_two_pow_of_ne (show 35 - i ≠ b by omega)]
      · simp only [List.length_cons] at hb
        refine ⟨(hagr b (by omega)).1, ?_⟩
        rw [(hagr b (by omega)).2, Nat.testBit_or, hx,
          Nat.testBit_two_pow_of_ne (show 35 - i ≠ b by omega), Bool.or_false]
    · obtain ⟨m', v', heq, hdis, hagr⟩ := ih (i + 1) (m ||| 1 <<< (35 - i)) v
        (fun c hc => hval c (List.mem_cons_of_mem _ hc)) (by omega)
        (fun b hb => ⟨by
          simp [Nat.testBit_or, (hlow b (by omega)).1, hx,
            Nat.testBit_two_pow_of_ne (show 35 - i ≠ b by omega)],
          (hlow b (by omega)).2⟩)
      refine ⟨m', v', heq, fun hmv => ?_, fun b hb => ?_⟩
      · apply hdis
        apply (and_eq_zero_iff_testBit _ _).2
        intro b
        by_cases hbi : b = 35 - i
        · subst hbi
          exact Or.inr (hlow (35 - i) (by omega)).2
        · rcases (and_eq_zero_iff_testBit _ _).1 hmv b with h1 | h1
          · refine Or.inl ?_
            simp [Nat.testBit_or, h1, hx,
              Nat.testBit_two_pow_of_ne (show 35 - i ≠ b by omega)]
          · exact Or.inr h1
      · simp only [List.length_cons] at hb
        refine ⟨?_, (hagr b (by omega)).2⟩
        rw [(hagr b (by omega)).1, Nat.testBit_or, hx,
          Nat.testBit_two_pow_of_ne (show 35 - i ≠ b by omega), Bool.or_false]

/-- Running the `from_str` loop on a valid suffix whose length is exactly
the number of remaining bit positions yields accumulators that render back,
bit by bit, to the suffix. -/
theorem fromStrGo_render (s : List Char) :
    ∀ i m v, (∀ c ∈ s, c = '0' ∨ c = '1' ∨ c = 'X') → i + s.length = 36 →
    (∀ b, b < s.length → m.testBit b = false ∧ v.testBit b = false) →
    ∃ m' v', fromStrGo s m v i = some ⟨m', v'⟩
      ∧ (downRange s.length).map (maskChar ⟨m', v'⟩) = s
      ∧ (∀ b, s.length ≤ b →
          m'.testBit b = m.testBit b ∧ v'.testBit b = v.testBit b) := by
  induction s with
  | nil =>
    intro i m v _ _ _
    exact ⟨m, v, rfl, rfl, fun b _ => ⟨rfl, rfl⟩⟩
  | cons c cs ih =>
    intro i m v hval hlen hlow
    simp only [List.length_cons] at hlen hlow
    have hk : 35 - i = cs.length := by omega
    have hx : (1 : Nat) <<< (35 - i) = 2 ^ cs.length := by
      rw [Nat.one_shiftLeft, hk]
    rcases hval c (List.mem_cons_self c cs) with hc | hc | hc <;> subst hc
    · obtain ⟨m', v', heq, hmap, hagr⟩ := ih (i + 1) m v
        (fun c hc => hval c (List.mem_cons_of_mem _ hc)) (by omega)
        (fun b hb => hlow b (by omega))
      refine ⟨m', v', heq, ?_, fun b hb => by
        simp only [List.length_cons] at hb
        exact hagr b (by omega)⟩
      show maskChar ⟨m', v'⟩ cs.length :: (downRange cs.length).map _ = _
      rw [hmap, maskChar_zero
        ((hagr cs.length le_rfl).1.trans (hlow cs.length (by omega)).1)
        ((hagr cs.length le_rfl).2.trans (hlow cs.length (by omega)).2)]
    · obtain ⟨m', v', heq, hmap, hagr⟩ := ih (i + 1) m (v ||| 1 <<< (35 - i))
        (fun c hc => hval c (List.mem_cons_of_mem _ hc)) (by omega)
        (fun b hb => ⟨(hlow b (by omega)).1, by
          simp [Nat.testBit_or, (hlow b (by omega)).2, hx,
            Nat.testBit_two_pow_of_ne (show cs.length ≠ b by omega)]⟩)
      have hvk : v'.testBit cs.length = true := by
        rw [(hagr cs.length le_rfl).2, Nat.testBit_or, hx,
          Nat.testBit_two_pow_self, Bool.or_true]
      refine ⟨m', v', heq, ?_, fun b hb => ?_⟩
      · show maskChar ⟨m', v'⟩ cs.length :: (downRange cs.length).map _ = _
        rw [hmap, maskChar_one
          ((hagr cs.length le_rfl).1.trans (hlow cs.length (by omega)).1) hvk]
      · simp only [List.length_cons] at hb
        refine ⟨(hagr b (by omega)).1, ?_⟩
        rw [(hagr b (by omega)).2, Nat.testBit_or, hx,
          Nat.testBit_two_pow_of_ne (show cs.length ≠ b by omega), Bool.or_false]
    · obtain ⟨m', v', heq, hmap, hagr⟩ := ih (i + 1) (m ||| 1 <<< (35 - i)) v
        (fun c hc => hval c (List.mem_cons_of_mem _ hc)) (by omega)
        (fun b hb => ⟨by
          simp [Nat.testBit_or, (hlow b (by omega)).1, hx,
            Nat.testBit_two_pow_of_ne (show cs.length ≠ b by omega)],
          (hlow b (by omega)).2⟩)
      have hmk : m'.testBit cs.length = true := by
        rw [(hagr cs.length le_rfl).1, Nat.testBit_or, hx,
          Nat.testBit_two_pow_self, Bool.or_true]
      refine ⟨m', v', heq, ?_, fun b hb => ?_⟩
      · show maskChar ⟨m', v'⟩ cs.length :: (downRange cs.length).map _ = _
        rw [hmap, maskChar_X hmk]
      · simp only [List.length_cons] at hb
        refine ⟨?_, (hagr b (by omega)).2⟩
        rw [(hagr b (by omega)).1, Nat.testBit_or, hx,
          Nat.testBit_two_pow_of_ne (show cs.length ≠ b by omega), Bool.or_false]

/-- After folding commands, the machine's mask is the initial one or comes
from some `SetMask` command of the list. -/
theorem mask_foldl_cases (step : Machine → Command → Machine)
    (hset : ∀ mach m, (step mach (.setMask m)).mask = m)
    (hassign : ∀ mach a v, (step mach (.assign a v)).mask = mach.mask)
    (cmds : List Command) :
    ∀ mach : Machine,
      (cmds.foldl step mach).mask = mach.mask ∨
        ∃ m, Command.setMask m ∈ cmds ∧ (cmds.foldl step mach).mask = m := by
  induction cmds with
  | nil => intro mach; exact Or.inl rfl
  | cons c rest ih =>
    intro mach
    rw [List.foldl_cons]
    cases c with
    | setMask m =>
      rcases ih (step mach (.setMask m)) with h | ⟨m', hm', h⟩
      · exact Or.inr ⟨m, List.mem_cons_self _ _, h.trans (hset mach m)⟩
      · exact Or.inr ⟨m', List.mem_cons_of_mem _ hm', h⟩
    | assign a v =>
      rcases ih (step mach (.assign a v)) with h | ⟨m', hm', h⟩
      · exact Or.inl (h.trans (hassign mach a v))
      · exact Or.inr ⟨m', List.mem_cons_of_mem _ hm', h⟩

/-- C4: every 36-character string over `{0,1,X}` parses successfully with
`Masked::from_str`, and rendering the result reproduces the string exactly
(`X` on a `care_mask` bit, else `1` on a `value_bits` bit, else `0`;
leftmost character is bit 35, rightmost bit 0). -/
theorem C4_round_trip (s : List Char) (hlen : s.length = 36)
    (hval : ∀ c ∈ s, c = '0' ∨ c = '1' ∨ c = 'X') :
    ∃ m : Masked, Masked.fromStr s = some m ∧ m.render = s := by
  obtain ⟨m', v', heq, hmap, _⟩ := fromStrGo_render s 0 0 0 hval (by omega)
    (fun b _ => ⟨Nat.zero_testBit b, Nat.zero_testBit b⟩)
  refine ⟨⟨m', v'⟩, heq, ?_⟩
  show ((List.range 36).reverse).map (maskChar ⟨m', v'⟩) = s
  rw [downRange_eq]
  rw [hlen] at hmap
  exact hmap

/-- Witness for C4: the scenario-A mask string round-trips. -/
theorem C4_round_trip_witness :
    ("XXXXXXXXXXXXXXXXXXXXXXXXXXXXX1XXXX0X".toList.length = 36) ∧
    (∃ m : Masked,
      Masked.fromStr "XXXXXXXXXXXXXXXXXXXXXXXXXXXXX1XXXX0X".toList = some m ∧
      m.render = "XXXXXXXXXXXXXXXXXXXXXXXXXXXXX1XXXX0X".toList) :=
  ⟨by decide, C4_round_trip _ (by decide) (by decide)⟩

/-- C5: every mask produced by `Masked::from_str` has `care_mask` and
`value_bits` disjoint; the initial fully transparent machine mask is
disjoint; and in every reachable state of either pass over commands whose
masks are disjoint (as all parsed masks are), the machine's mask stays
disjoint. -/
theorem C5_disjointness :
    (∀ (s : List Char) (m : Masked), s.length ≤ 36 →
        (∀ c ∈ s, c = '0' ∨ c = '1' ∨ c = 'X') →
        Masked.fromStr s = some m → m.mask &&& m.value = 0)
    ∧ Machine.new.mask.mask &&& Machine.new.mask.value = 0
    ∧ (∀ (cmds : List Command) (n : Nat),
        (∀ m : Masked, Command.setMask m ∈ cmds → m.mask &&& m.value = 0) →
        ((cmds.take n).foldl step1 Machine.new).mask.mask &&&
            ((cmds.take n).foldl step1 Machine.new).mask.value = 0
          ∧ ((cmds.take n).foldl step2 Machine.new).mask.mask &&&
            ((cmds.take n).foldl step2 Machine.new).mask.value = 0) := by
  refine ⟨?_, Nat.and_zero _, ?_⟩
  · intro s m hlen hval heq
    obtain ⟨m', v', heq', hdis, _⟩ := fromStrGo_ok s 0 0 0 hval (by omega)
      (fun b _ => ⟨Nat.zero_testBit b, Nat.zero_testBit b⟩)
    have : some m = some (⟨m', v'⟩ : Masked) := heq.symm.trans heq'
    cases this
    exact hdis rfl
  · intro cmds n hdis
    have hsub : ∀ m : Masked, Command.setMask m ∈ cmds.take n →
        m.mask &&& m.value = 0 :=
      fun m hm => hdis m (List.take_subset n cmds hm)
    constructor
    · rcases mask_foldl_cases step1 (fun _ _ => rfl) (fun _ _ _ => rfl)
        (cmds.take n) Machine.new with h | ⟨m, hm, h⟩
      · rw [h]; exact Nat.and_zero _
      · rw [h]; exact hsub m hm
    · rcases mask_foldl_cases step2 (fun _ _ => rfl)
        (fun mach a v => mask_foldl_store _ mach v)
        (cmds.take n) Machine.new with h | ⟨m, hm, h⟩
      · rw [h]; exact Nat.and_zero _
      · rw [h]; exact hsub m hm

/-- Witness for C5 at concrete inputs. -/
theorem C5_disjointness_witness :
    (34359738368 : Nat) &&& (17179869184 : Nat) = 0 ∧
    (([Command.setMask ⟨1, 2⟩].take 1).foldl step1 Machine.new).mask.mask &&&
      (([Command.setMask ⟨1, 2⟩].take 1).foldl step1 Machine.new).mask.value = 0 :=
  ⟨C5_disjointness.1 ("X1".toList) ⟨34359738368, 17179869184⟩ (by decide)
      (by decide) (by decide),
    (C5_disjointness.2.2 [Command.setMask ⟨1, 2⟩] 1 (fun m hm => by
      cases hm with
      | head => decide
      | tail _ h => cases h)).1⟩

/-- C10: `Masked::from_str` does no length validation — any string over
`{0,1,X}` of length at most 36 parses successfully, filling only the
high-order bit positions (bits below `36 - length` stay clear); the empty
string parses to the zero mask; the exactly-36 requirement is enforced only
by `parse_line`'s grammar, which rejects a short mask line. -/
theorem C10_fromStr_no_length_check :
    (∀ s : List Char, s.length ≤ 36 → (∀ c ∈ s, c = '0' ∨ c = '1' ∨ c = 'X') →
        ∃ m : Masked, Masked.fromStr s = some m ∧
          ∀ b, b + s.length < 36 →
            m.mask.testBit b = false ∧ m.value.testBit b = false)
    ∧ Masked.fromStr [] = some ⟨0, 0⟩
    ∧ parse_line ("mask = X".toList) = .error ("mask = X".toList) := by
  refine ⟨?_, rfl, rfl⟩
  intro s hlen hval
  obtain ⟨m', v', heq, _, hagr⟩ := fromStrGo_ok s 0 0 0 hval (by omega)
    (fun b _ => ⟨Nat.zero_testBit b, Nat.zero_testBit b⟩)
  refine ⟨⟨m', v'⟩, heq, fun b hb => ?_⟩
  have h := hagr b (by omega)
  exact ⟨h.1.trans (Nat.zero_testBit b), h.2.trans (Nat.zero_testBit b)⟩

/-- Witness for C10: the one-character mask string `X` parses. -/
theorem C10_fromStr_no_length_check_witness :
    (List.length ['X'] ≤ 36) ∧
    (∃ m : Masked, Masked.fromStr ['X'] = some m ∧
      ∀ b, b + List.length ['X'] < 36 →
        m.mask.testBit b = false ∧ m.value.testBit b = false) :=
  ⟨by decide, C10_fromStr_no_length_check.1 ['X'] (by decide) (by decide)⟩

/-- On a machine whose mask is disjoint (and whose `value_bits` fit in 64
bits, as every `usize` does), the code's step `value & (mask | value) |
(!mask & value)` agrees with the spec's `value & (mask | value) | value`. -/
theorem step1_eq_spec (mach : Machine) (c : Command)
    (h : mach.mask.mask &&& mach.mask.value = 0)
    (hv : mach.mask.value < USIZE) :
    step1 mach c = step1Spec mach c := by
  cases c with
  | setMask m => rfl
  | assign a v =>
    simp only [step1, step1Spec]
    rw [not64_and_eq_self h hv]

/-- Folding `step1` and `step1Spec` agree from any machine with a
well-formed mask, along command lists whose masks are well-formed. -/
theorem foldl_step1_eq_spec (cmds : List Command)
    (hcmds : ∀ m : Masked, Command.setMask m ∈ cmds →
        m.mask &&& m.value = 0 ∧ m.value < USIZE) :
    ∀ mach : Machine, mach.mask.mask &&& mach.mask.value = 0 →
      mach.mask.value < USIZE →
      cmds.foldl step1 mach = cmds.foldl step1Spec mach := by
  induction cmds with
  | nil => intro mach _ _; rfl
  | cons c rest ih =>
    intro mach hd hv
    rw [List.foldl_cons, List.foldl_cons, step1_eq_spec mach c hd hv]
    cases c with
    | setMask m =>
      exact ih (fun m' hm' => hcmds m' (List.mem_cons_of_mem _ hm')) _
        (hcmds m (List.mem_cons_self _ _)).1 (hcmds m (List.mem_cons_self _ _)).2
    | assign a v =>
      exact ih (fun m' hm' => hcmds m' (List.mem_cons_of_mem _ hm')) _ hd hv

/-- C1: `part1` processes commands in order against a fresh machine, and for
each `Assign` stores, at the literal address, exactly the spec's value
`(raw_value AND (care_mask OR value_bits)) OR value_bits` — the machine
trace of the code's step equals that of the spec's step on every prefix,
given that the command masks are disjoint (as every parsed mask is; the
claim itself notes the code's `!care_mask & value_bits` matches the spec's
`value_bits` exactly in the disjoint case). -/
theorem C1_part1_value_masking (cmds : List Command)
    (hcmds : ∀ m : Masked, Command.setMask m ∈ cmds →
        m.mask &&& m.value = 0 ∧ m.value < USIZE) :
    (∀ n : Nat, (cmds.take n).foldl step1 Machine.new =
        (cmds.take n).foldl step1Spec Machine.new)
    ∧ part1 cmds = part1Spec cmds := by
  have hnew : Machine.new.mask.mask &&& Machine.new.mask.value = 0 :=
    Nat.and_zero _
  have hvnew : Machine.new.mask.value < USIZE := Nat.two_pow_pos 64
  constructor
  · intro n
    exact foldl_step1_eq_spec (cmds.take n)
      (fun m hm => hcmds m (List.take_subset n cmds hm)) Machine.new hnew hvnew
  · show (cmds.foldl step1 Machine.new).sum_values =
      (cmds.foldl step1Spec Machine.new).sum_values
    rw [foldl_step1_eq_spec cmds hcmds Machine.new hnew hvnew]

/-- Witness for C1 on a concrete two-command program. -/
theorem C1_part1_value_masking_witness :
    part1 [Command.setMask ⟨4, 2⟩, Command.assign 8 11] =
      part1Spec [Command.setMask ⟨4, 2⟩, Command.assign 8 11] :=
  (C1_part1_value_masking [Command.setMask ⟨4, 2⟩, Command.assign 8 11]
    (fun m hm => by
      cases hm with
      | head => exact ⟨by decide, by decide⟩
      | tail _ h => cases h with | tail _ h2 => cases h2)).2

/-! ## Helper lemmas: address expansion -/

/-- Oring in `1 << i` sets bit `i`. -/
theorem testBit_or_shift_self (a i : Nat) : (a ||| 1 <<< i).testBit i = true := by
  rw [Nat.testBit_or, Nat.one_shiftLeft, Nat.testBit_two_pow_self, Bool.or_true]

/-- Oring in `1 << i` leaves other bits alone. -/
theorem testBit_or_shift_ne (a i b : Nat) (h : b ≠ i) :
    (a ||| 1 <<< i).testBit b = a.testBit b := by
  rw [Nat.testBit_or, Nat.one_shiftLeft, Nat.testBit_two_pow_of_ne (Ne.symm h),
    Bool.or_false]

/-- Anding with `!(1 << i)` clears bit `i`. -/
theorem testBit_and_not_shift_self (a i : Nat) (hi : i < 64) :
    (a &&& not64 (1 <<< i)).testBit i = false := by
  rw [Nat.testBit_and, testBit_not64, Nat.one_shiftLeft, Nat.testBit_two_pow_self]
  simp [hi]

/-- Anding with `!(1 << i)` leaves other bits of a 64-bit value alone. -/
theorem testBit_and_not_shift_ne (a i b : Nat) (h : b ≠ i) (ha : a < USIZE) :
    (a &&& not64 (1 <<< i)).testBit b = a.testBit b := by
  rw [Nat.testBit_and, testBit_not64, Nat.one_shiftLeft,
    Nat.testBit_two_pow_of_ne (Ne.symm h)]
  by_cases hb : b < 64
  · simp [hb]
  · have h0 : a.testBit b = false :=
      testBit_eq_false_of_lt (show a < 2 ^ 64 from ha) (by omega)
    simp [hb, h0]

/-- One doubling step doubles the list length. -/
theorem expandStep_length (x : Nat) (R : List Nat) :
    (expandStep x R).length = 2 * R.length := by
  induction R with
  | nil => rfl
  | cons a R₀ ih => simp [expandStep] at ih ⊢; omega

/-- Membership in one doubling step. -/
theorem mem_expandStep {x y : Nat} {R : List Nat} :
    y ∈ expandStep x R ↔ ∃ a ∈ R, y = a ||| x ∨ y = a &&& not64 x := by
  simp only [expandStep, List.mem_flatMap, List.mem_cons, List.not_mem_nil,
    or_false]

/-- A doubling step preserves distinctness, provided all inputs are 64-bit
values agreeing on the doubled bit. -/
theorem expandStep_nodup (i : Nat) (hi : i < 64) (t : Bool) :
    ∀ R : List Nat, R.Nodup → (∀ a ∈ R, a < USIZE) →
    (∀ a ∈ R, a.testBit i = t) → (expandStep (1 <<< i) R).Nodup := by
  intro R
  induction R with
  | nil => intro _ _ _; exact List.nodup_nil
  | cons a R₀ ih =>
    intro hnd hlt hbit
    have hndt := (List.nodup_cons.1 hnd).2
    have hamem := (List.nodup_cons.1 hnd).1
    show ((a ||| 1 <<< i) :: (a &&& not64 (1 <<< i)) ::
      expandStep (1 <<< i) R₀).Nodup
    rw [List.nodup_cons, List.nodup_cons]
    refine ⟨?_, ?_, ih hndt (fun a' h => hlt a' (List.mem_cons_of_mem _ h))
      (fun a' h => hbit a' (List.mem_cons_of_mem _ h))⟩
    · intro hmem
      rcases List.mem_cons.1 hmem with heq | hmem'
      · have h1 := congrArg (fun z => Nat.testBit z i) heq
        simp only [testBit_or_shift_self, testBit_and_not_shift_self a i hi] at h1
        cases h1
      · rcases mem_expandStep.1 hmem' with ⟨a', ha', hor | hand⟩
        · have : a = a' := by
            apply Nat.eq_of_testBit_eq
            intro b
            by_cases hb : b = i
            · subst hb
              rw [hbit a (List.mem_cons_self _ _),
                hbit a' (List.mem_cons_of_mem _ ha')]
            · have h2 := congrArg (fun z => Nat.testBit z b) hor
              simpa [testBit_or_shift_ne _ _ _ hb] using h2
          exact hamem (this ▸ ha')
        · have h1 := congrArg (fun z => Nat.testBit z i) hand
          simp only [testBit_or_shift_self,
            testBit_and_not_shift_self a' i hi] at h1
          cases h1
    · intro hmem
      rcases mem_expandStep.1 hmem with ⟨a', ha', hor | hand⟩
      · have h1 := congrArg (fun z => Nat.testBit z i) hor
        simp only [testBit_and_not_shift_self a i hi,
          testBit_or_shift_self] at h1
        cases h1
      · have : a = a' := by
          apply Nat.eq_of_testBit_eq
          intro b
          by_cases hb : b = i
          · subst hb
            rw [hbit a (List.mem_cons_self _ _),
              hbit a' (List.mem_cons_of_mem _ ha')]
          · have h2 : (a &&& not64 (1 <<< i)).testBit b =
                (a' &&& not64 (1 <<< i)).testBit b := by rw [hand]
            rwa [testBit_and_not_shift_ne a i b hb (hlt a (List.mem_cons_self _ _)),
              testBit_and_not_shift_ne a' i b hb
                (hlt a' (List.mem_cons_of_mem _ ha'))] at h2
        exact hamem (this ▸ ha')

/-- Main invariant of the expansion loop: processing distinct bit indices
below 64 starting from distinct 64-bit seeds agreeing with `addr` on all
unprocessed and all non-floating positions yields
`|R| * 2^(floating indices)` distinct addresses that agree with `addr` on
every non-floating position. -/
theorem expandLoop_spec (l : List Nat) :
    ∀ (mask addr : Nat) (R : List Nat),
    (∀ i ∈ l, i < 64) → l.Nodup → R.Nodup →
    (∀ a ∈ R, a < USIZE) →
    (∀ a ∈ R, ∀ b, (b ∈ l ∨ mask.testBit b = false) →
        a.testBit b = addr.testBit b) →
    (expandLoop l mask R).length =
        R.length * 2 ^ (l.countP (fun i => mask.testBit i))
      ∧ (expandLoop l mask R).Nodup
      ∧ (∀ a ∈ expandLoop l mask R, a < USIZE ∧
          ∀ b, mask.testBit b = false → a.testBit b = addr.testBit b) := by
  induction l with
  | nil =>
    intro mask addr R _ _ h3 h4 h5
    exact ⟨by simp [expandLoop], h3,
      fun a ha => ⟨h4 a ha, fun b hb => h5 a ha b (Or.inr hb)⟩⟩
  | cons i rest ih =>
    intro mask addr R h1 h2 h3 h4 h5
    have hi64 : i < 64 := h1 i (List.mem_cons_self _ _)
    have hirest : i ∉ rest := (List.nodup_cons.1 h2).1
    cases hbit : mask.testBit i with
    | false =>
      have hcond : ¬(mask &&& (1 <<< i) ≠ 0) := fun hc => by
        rw [(and_one_shiftLeft_ne_zero _ _).1 hc] at hbit; cases hbit
      rw [show expandLoop (i :: rest) mask R = expandLoop rest mask R from by
        show expandLoop rest mask
          (if mask &&& (1 <<< i) ≠ 0 then expandStep (1 <<< i) R else R) = _
        rw [if_neg hcond]]
      have hmain := ih mask addr R (fun j hj => h1 j (List.mem_cons_of_mem _ hj))
        (List.nodup_cons.1 h2).2 h3 h4
        (fun a ha b hb => h5 a ha b (hb.imp_left (List.mem_cons_of_mem _)))
      refine ⟨?_, hmain.2.1, hmain.2.2⟩
      have hcount : List.countP (fun j => mask.testBit j) (i :: rest) =
          List.countP (fun j => mask.testBit j) rest :=
        List.countP_cons_of_neg _ _ (by simp [hbit])
      rw [hmain.1, hcount]
    | true =>
      have hcond : mask &&& (1 <<< i) ≠ 0 := (and_one_shiftLeft_ne_zero _ _).2 hbit
      rw [show expandLoop (i :: rest) mask R =
          expandLoop rest mask (expandStep (1 <<< i) R) from by
        show expandLoop rest mask
          (if mask &&& (1 <<< i) ≠ 0 then expandStep (1 <<< i) R else R) = _
        rw [if_pos hcond]]
      have hlt' : ∀ a ∈ expandStep (1 <<< i) R, a < USIZE := by
        intro a ha
        rcases mem_expandStep.1 ha with ⟨a', ha', rfl | rfl⟩
        · refine Nat.or_lt_two_pow (h4 a' ha') ?_
          rw [Nat.one_shiftLeft]
          exact Nat.pow_lt_pow_right (by norm_num) hi64
        · exact Nat.lt_of_le_of_lt Nat.and_le_left (h4 a' ha')
      have hnd' : (expandStep (1 <<< i) R).Nodup :=
        expandStep_nodup i hi64 (addr.testBit i) R h3 h4
          (fun a ha => h5 a ha i (Or.inl (List.mem_cons_self _ _)))
      have hagr' : ∀ a ∈ expandStep (1 <<< i) R, ∀ b,
          (b ∈ rest ∨ mask.testBit b = false) →
          a.testBit b = addr.testBit b := by
        intro a ha b hb
        have hbne : b ≠ i := by
          rcases hb with hb | hb
          · exact fun he => hirest (he ▸ hb)
          · exact fun he => by rw [he, hbit] at hb; cases hb
        rcases mem_expandStep.1 ha with ⟨a', ha', rfl | rfl⟩
        · rw [testBit_or_shift_ne _ _ _ hbne]
          exact h5 a' ha' b (hb.imp_left (List.mem_cons_of_mem _))
        · rw [testBit_and_not_shift_ne _ _ _ hbne (h4 a' ha')]
          exact h5 a' ha' b (hb.imp_left (List.mem_cons_of_mem _))
      have hmain := ih mask addr (expandStep (1 <<< i) R)
        (fun j hj => h1 j (List.mem_cons_of_mem _ hj)) (List.nodup_cons.1 h2).2
        hnd' hlt' hagr'
      refine ⟨?_, hmain.2.1, hmain.2.2⟩
      have hcount : List.countP (fun j => mask.testBit j) (i :: rest) =
          List.countP (fun j => mask.testBit j) rest + 1 :=
        List.countP_cons_of_pos _ _ (by simp [hbit])
      rw [hmain.1, expandStep_length, hcount, pow_succ]
      ring

/-- C3: for a mask whose set bits lie in positions 0–35 and any base
address, `expand_addresses` returns exactly `2^k` addresses (`k` the number
of floating bits), pairwise distinct, each agreeing with the base address on
every bit position not set in the mask. -/
theorem C3_expansion_shape (mask address : Nat) (_hm : mask < 2 ^ 36)
    (ha : address < USIZE) :
    (expand_addresses mask address).length =
        2 ^ ((List.range 36).countP (fun i => mask.testBit i))
      ∧ (expand_addresses mask address).Nodup
      ∧ ∀ a ∈ expand_addresses mask address, ∀ b, mask.testBit b = false →
          a.testBit b = address.testBit b := by
  obtain ⟨h1, h2, h3⟩ := expandLoop_spec (List.range 36) mask address [address]
    (fun i hi => by have := List.mem_range.1 hi; omega)
    (List.nodup_range 36) (List.nodup_singleton _)
    (fun a hmem => by rw [List.mem_singleton.1 hmem]; exact ha)
    (fun a hmem b _ => by rw [List.mem_singleton.1 hmem])
  exact ⟨by simpa using h1, h2, fun a hmem b hb => (h3 a hmem).2 b hb⟩

/-- Witness for C3 at mask 33 (bits 0 and 5 floating) and base address
26. -/
theorem C3_expansion_shape_witness :
    ((33 : Nat) < 2 ^ 36 ∧ (26 : Nat) < USIZE) ∧
    ((expand_addresses 33 26).length =
        2 ^ ((List.range 36).countP (fun i => (33 : Nat).testBit i))
      ∧ (expand_addresses 33 26).Nodup
      ∧ ∀ a ∈ expand_addresses 33 26, ∀ b, (33 : Nat).testBit b = false →
          a.testBit b = (26 : Nat).testBit b) :=
  ⟨⟨by decide, by decide⟩, C3_expansion_shape 33 26 (by decide) (by decide)⟩

/-! ## Helper lemmas: line parsing -/

/-- `dropStart` succeeds exactly on strings with the expected front. -/
theorem dropStart_eq_some : ∀ (p s r : List Char),
    dropStart p s = some r ↔ s = p ++ r
  | [], s, r => by simp [dropStart]
  | p :: ps, [], r => by simp [dropStart]
  | p :: ps, c :: cs, r => by
    simp only [dropStart, List.cons_append, List.cons.injEq]
    by_cases h : c = p
    · simp [h, dropStart_eq_some ps cs r]
    · simp [h]

/-- A non-empty list is not `isEmpty`. -/
theorem isEmpty_false_of_ne_nil {l : List Char} (h : l ≠ []) :
    l.isEmpty = false := by
  cases l with
  | nil => cases h rfl
  | cons a t => rfl

/-- A non-`isEmpty` list is non-empty. -/
theorem ne_nil_of_isEmpty_false {l : List Char} (h : l.isEmpty = false) :
    l ≠ [] := by
  cases l with
  | nil => cases h
  | cons a t => exact fun he => by cases he

/-- `takeWhile`/`dropWhile` split a list at the first failing element. -/
theorem takeWhile_append_not (p : Char → Bool) (c : Char) (hc : p c = false) :
    ∀ (l r : List Char), (∀ d ∈ l, p d = true) →
      (l ++ c :: r).takeWhile p = l ∧ (l ++ c :: r).dropWhile p = c :: r := by
  intro l
  induction l with
  | nil =>
    intro r _
    refine ⟨?_, ?_⟩
    · show (c :: r).takeWhile p = []
      rw [List.takeWhile_cons, hc]
      simp
    · show (c :: r).dropWhile p = c :: r
      rw [List.dropWhile_cons, hc]
      simp
  | cons d l₀ ih =>
    intro r hall
    have hd : p d = true := hall d (List.mem_cons_self _ _)
    have hrec := ih r (fun e he => hall e (List.mem_cons_of_mem _ he))
    refine ⟨?_, ?_⟩
    · show ((d :: (l₀ ++ c :: r)).takeWhile p) = d :: l₀
      rw [List.takeWhile_cons, hd]
      simp [hrec.1]
    · show ((d :: (l₀ ++ c :: r)).dropWhile p) = c :: r
      rw [List.dropWhile_cons, hd]
      simp [hrec.2]

/-- The `[10X]` class agrees with the spec's alphabet. -/
theorem all_isMaskChar_iff (body : List Char) :
    body.all isMaskChar = true ↔ ∀ c ∈ body, c = '0' ∨ c = '1' ∨ c = 'X' := by
  rw [List.all_eq_true]
  constructor
  · intro h c hc
    have := h c hc
    simp [isMaskChar] at this
    tauto
  · intro h c hc
    have := h c hc
    simp [isMaskChar]
    tauto

/-- Success characterization of the `SET_MASK` regex match. -/
theorem matchMask_some {s body : List Char} :
    matchMask s = some body ↔
      s = "mask = ".toList ++ body ∧ body.length = 36 ∧
        body.all isMaskChar = true := by
  constructor
  · intro h
    unfold matchMask at h
    split at h
    · rename_i b heq
      split at h
      · rename_i hcond
        cases h
        rw [Bool.and_eq_true] at hcond
        exact ⟨(dropStart_eq_some _ _ _).1 heq,
          of_decide_eq_true hcond.1, hcond.2⟩
      · cases h
    · cases h
  · rintro ⟨hs, hlen, hall⟩
    unfold matchMask
    rw [(dropStart_eq_some "mask = ".toList s body).2 hs]
    show (if (decide (body.length = 36) && body.all isMaskChar) = true
      then some body else none) = some body
    rw [if_pos (show (decide (body.length = 36) && body.all isMaskChar) = true
      by rw [Bool.and_eq_true]; exact ⟨decide_eq_true hlen, hall⟩)]

/-- The `ASSIGN` regex matches a well-formed `mem[..] = ..` line. -/
theorem matchAssign_of_grammar {s ds1 ds2 : List Char}
    (hs : s = "mem[".toList ++ (ds1 ++ ("] = ".toList ++ ds2)))
    (h1 : ds1 ≠ []) (h2 : ds2 ≠ [])
    (hd1 : ∀ c ∈ ds1, c.isDigit = true) (hd2 : ∀ c ∈ ds2, c.isDigit = true) :
    matchAssign s = some (digitsToNat ds1, digitsToNat ds2) := by
  subst hs
  have hcons : ("] = ".toList ++ ds2 : List Char) =
      ']' :: (' ' :: '=' :: ' ' :: ds2) := rfl
  have e0 : dropStart "mem[".toList
      ("mem[".toList ++ (ds1 ++ ("] = ".toList ++ ds2))) =
      some (ds1 ++ ("] = ".toList ++ ds2)) :=
    (dropStart_eq_some _ _ _).2 rfl
  have e1 : (ds1 ++ ("] = ".toList ++ ds2)).takeWhile Char.isDigit = ds1 := by
    rw [hcons]
    exact (takeWhile_append_not Char.isDigit ']' (by decide) ds1 _ hd1).1
  have e2 : (ds1 ++ ("] = ".toList ++ ds2)).dropWhile Char.isDigit =
      "] = ".toList ++ ds2 := by
    rw [hcons]
    exact (takeWhile_append_not Char.isDigit ']' (by decide) ds1 _ hd1).2
  have e3 : dropStart "] = ".toList ("] = ".toList ++ ds2) = some ds2 :=
    (dropStart_eq_some _ _ _).2 rfl
  have e4 : ds1.isEmpty = false := isEmpty_false_of_ne_nil h1
  have e5 : ds2.isEmpty = false := isEmpty_false_of_ne_nil h2
  have e6 : ds2.all Char.isDigit = true := List.all_eq_true.2 hd2
  have e4' : ¬(ds1.isEmpty = true) := by rw [e4]; decide
  have e56 : ¬((ds2.isEmpty || !(ds2.all Char.isDigit)) = true) := by
    rw [e5, e6]; decide
  unfold matchAssign
  simp only [e0]
  rw [e1, e2, if_neg e4']
  simp only [e3]
  rw [if_neg e56]

/-- A successful `ASSIGN` match means the line fits the assign grammar. -/
theorem grammar_of_matchAssign {s : List Char} {av : Nat × Nat}
    (h : matchAssign s = some av) : AssignGrammar s := by
  unfold matchAssign at h
  split at h
  · cases h
  · rename_i rest heq
    dsimp only at h
    split at h
    · cases h
    · rename_i hne
      split at h
      · cases h
      · rename_i ds2 heq2
        split at h
        · cases h
        · rename_i hcond2
          have hds2 : ds2.isEmpty = false ∧ ds2.all Char.isDigit = true := by
            revert hcond2
            cases hh1 : ds2.isEmpty <;> cases hh2 : ds2.all Char.isDigit <;> simp
          refine ⟨rest.takeWhile Char.isDigit, ds2, ?_, ?_,
            ne_nil_of_isEmpty_false hds2.1,
            fun c hc => List.mem_takeWhile_imp hc,
            fun c hc => List.all_eq_true.1 hds2.2 c hc⟩
          · have hs : s = "mem[".toList ++ rest :=
              (dropStart_eq_some _ _ _).1 heq
            have hr1 : rest.dropWhile Char.isDigit = "] = ".toList ++ ds2 :=
              (dropStart_eq_some _ _ _).1 heq2
            have hsplit : rest =
                rest.takeWhile Char.isDigit ++ ("] = ".toList ++ ds2) := by
              conv_lhs => rw [← List.takeWhile_append_dropWhile Char.isDigit rest]
              rw [hr1]
            rw [hs]
            conv_lhs => rw [hsplit]
            simp [List.append_assoc]
          · refine ne_nil_of_isEmpty_false ?_
            revert hne
            cases (rest.takeWhile Char.isDigit).isEmpty <;> simp

/-- C8: `parse_line` succeeds on a line exactly when it matches one of the
two grammars (which are mutually exclusive); otherwise it fails with an
error carrying the offending line; in particular `mem[1 = 5` is rejected
rather than skipped. -/
theorem C8_parse_contract :
    (∀ s : List Char,
        ((∃ c : Command, parse_line s = .ok c) ↔ MaskGrammar s ∨ AssignGrammar s)
        ∧ (parse_line s = .error s ∨ ∃ c : Command, parse_line s = .ok c)
        ∧ ¬(MaskGrammar s ∧ AssignGrammar s))
    ∧ parse_line ("mem[1 = 5".toList) = .error ("mem[1 = 5".toList) := by
  refine ⟨fun s => ⟨⟨?_, ?_⟩, ?_, ?_⟩, rfl⟩
  · rintro ⟨c, hc⟩
    unfold parse_line at hc
    split at hc
    · rename_i body heq
      refine Or.inl ?_
      have hm := matchMask_some.1 heq
      exact ⟨body, hm.1, hm.2.1, (all_isMaskChar_iff _).1 hm.2.2⟩
    · rename_i heq
      split at hc
      · rename_i av heq2
        exact Or.inr (grammar_of_matchAssign heq2)
      · cases hc
  · rintro (⟨body, hs, hlen, hval⟩ | ⟨ds1, ds2, hs, h1, h2, hd1, hd2⟩)
    · have hmm : matchMask s = some body :=
        matchMask_some.2 ⟨hs, hlen, (all_isMaskChar_iff _).2 hval⟩
      obtain ⟨m', v', heq', -, -⟩ := fromStrGo_ok body 0 0 0 hval (by omega)
        (fun b _ => ⟨Nat.zero_testBit b, Nat.zero_testBit b⟩)
      refine ⟨.setMask ⟨m', v'⟩, ?_⟩
      unfold parse_line
      simp only [hmm, show Masked.fromStr body = some ⟨m', v'⟩ from heq']
    · have hshape : s = "mem[".toList ++ (ds1 ++ ("] = ".toList ++ ds2)) := by
        rw [hs]; simp [List.append_assoc]
      have hma : matchAssign s = some (digitsToNat ds1, digitsToNat ds2) :=
        matchAssign_of_grammar hshape h1 h2 hd1 hd2
      have hmm : matchMask s = none := by rw [hshape]; rfl
      refine ⟨.assign (digitsToNat ds1) (digitsToNat ds2), ?_⟩
      unfold parse_line
      simp only [hmm, hma]
  · unfold parse_line
    split
    · split
      · exact Or.inr ⟨_, rfl⟩
      · exact Or.inl rfl
    · split
      · exact Or.inr ⟨_, rfl⟩
      · exact Or.inl rfl
  · rintro ⟨⟨body, hsm, -, -⟩, ⟨ds1, ds2, hsa, -, -, -, -⟩⟩
    have d1 : dropStart "mask = ".toList s = some body :=
      (dropStart_eq_some _ _ _).2 hsm
    have d2 : dropStart "mask = ".toList s = none := by rw [hsa]; rfl
    rw [d1] at d2
    cases d2

/-- Witness for C8: a well-formed assign line parses. -/
theorem C8_parse_contract_witness :
    ∃ c : Command, parse_line ("mem[8] = 11".toList) = .ok c :=
  (C8_parse_contract.1 ("mem[8] = 11".toList)).1.mpr
    (Or.inr ⟨['8'], ['1', '1'], by decide, by decide, by decide, by decide,
      by decide⟩)
